import Mathlib

/-!
Shallow embedding of `src/pkg/imaging/tools.go` (package `imaging`).

Conventions used throughout:

* An RGBA8 pixel is four bytes, modelled as `Fin 256` channels (`Pixel`).
* `image.Point` / `image.Rectangle` are modelled over `ℤ` (`GoPoint`,
  `GoRect`), with the operations `Sub`, `Intersect`, `Empty`, `Dx`, `Dy`,
  `In` translated from Go's `image` package, which this repository calls.
* A source image (`image.Image` read through `newScanner`) is modelled as an
  abstract width/height plus a total pixel function (`Img`).  `newScanner`
  and `parallel` are not part of `src/`; they are modelled from the spec:
  `scan(x0, y0, x1, y1, out)` fills `out` with the RGBA8 pixels of row `y0`,
  columns `[x0, x1)`, and `parallel(lo, hi, f)` delivers every integer of
  `[lo, hi)` exactly once.  `parallel` is modelled as a sequential loop in
  increasing order (a single worker); results that depend on cross-worker
  interleavings are noted where they occur.
* Destination `*image.NRGBA` buffers allocated by `image.NewNRGBA` always
  have `Stride = 4*w`; where an operation's reads and writes stay inside the
  freshly scanned row segment the buffer is modelled at pixel level
  (`Buf` / `mkBuf`, row-major: index `y*w + x` holds pixel `(x, y)`, which is
  byte offset `y*Stride + 4*x` in Go).  `OpaqueArea` and `OpaquePolygon`
  read bytes outside the segment their own iteration wrote, so for those two
  the scratch buffer is modelled as a raw byte list, and an out-of-range
  index or slice bound (a Go runtime panic) is modelled as `none`.
* Go `float64` arithmetic is modelled over `ℚ`.  On every execution path the
  claims exercise, the Go float operations are exact (small integers, `x/x`,
  and division by the literal 255 with integral quotients), so the rational
  model coincides with IEEE double evaluation there.  The one exceptional
  path is the blend's `coefSum = 0` case, where Go divides 0/0: the NaN RGB
  channels then pass through `uint8(...)`, which on gc/amd64 (cvttsd2si)
  yields byte 0; `blendPix` models that branch explicitly.  `uint8(f)` on an
  in-range value truncates toward zero; out-of-range values take the low
  byte of the truncated integer (`goUint8`).
-/

namespace ImagingModel

/-- One straight-alpha RGBA8 pixel (non-premultiplied), as produced by the
scanner. -/
@[ext]
structure Pixel where
  r : Fin 256
  g : Fin 256
  b : Fin 256
  a : Fin 256
deriving DecidableEq, Repr

/-- Go's `image.Point`. -/
@[ext]
structure GoPoint where
  x : ℤ
  y : ℤ
deriving DecidableEq, Repr

/-- Go's `image.Rectangle`: min inclusive, max exclusive (except where the code
itself stores inclusive coordinates, as `OpaqueBounds` does). -/
@[ext]
structure GoRect where
  min : GoPoint
  max : GoPoint
deriving DecidableEq, Repr

/-- Go's `Point.Sub`. -/
def GoPoint.sub (p q : GoPoint) : GoPoint := ⟨p.x - q.x, p.y - q.y⟩

/-- Go's `Rectangle.Empty()`: `r.Min.X >= r.Max.X || r.Min.Y >= r.Max.Y`. -/
def GoRect.isEmpty (r : GoRect) : Prop := r.max.x ≤ r.min.x ∨ r.max.y ≤ r.min.y

instance (r : GoRect) : Decidable r.isEmpty := by
  unfold GoRect.isEmpty; exact inferInstance

/-- Go's `Rectangle.Intersect`: clip both corners, then return the zero rectangle
if the clipped rectangle is empty. -/
def GoRect.intersect (r s : GoRect) : GoRect :=
  let t : GoRect := ⟨⟨Max.max r.min.x s.min.x, Max.max r.min.y s.min.y⟩,
                     ⟨Min.min r.max.x s.max.x, Min.min r.max.y s.max.y⟩⟩
  if t.isEmpty then ⟨⟨0, 0⟩, ⟨0, 0⟩⟩ else t

/-- Go's `Rectangle.Sub(p)`. -/
def GoRect.sub (r : GoRect) (p : GoPoint) : GoRect :=
  ⟨r.min.sub p, r.max.sub p⟩

/-- Go's `Rectangle.Dx()`. -/
def GoRect.dx (r : GoRect) : ℤ := r.max.x - r.min.x

/-- Go's `Rectangle.Dy()`. -/
def GoRect.dy (r : GoRect) : ℤ := r.max.y - r.min.y

/-- Go's point-in-rectangle test `Point.In`. -/
def GoRect.containsB (r : GoRect) (x y : ℤ) : Bool :=
  decide (r.min.x ≤ x) && decide (x < r.max.x) &&
  decide (r.min.y ≤ y) && decide (y < r.max.y)

/-- Modelled from the spec: an `image.Image` as seen through `newScanner`
(neither is in `src/`): a declared width and height plus a total
"read pixel (x, y) as RGBA8" function.  Source bounds are normalized to
`Min = (0,0)` (the scanner addresses rows `0..h-1`, columns `0..w-1`). -/
structure Img where
  w : ℕ
  h : ℕ
  pix : ℕ → ℕ → Pixel

/-- Bounds `img.Bounds()` of a normalized source. -/
def Img.bounds (img : Img) : GoRect := ⟨⟨0, 0⟩, ⟨(img.w : ℤ), (img.h : ℤ)⟩⟩

/-- An `*image.NRGBA` result buffer (`Stride = 4*w`), at pixel granularity:
`pixels` is row-major, index `y*w + x` (byte offset `y*Stride + 4*x` in Go)
holds pixel `(x, y)`. -/
structure Buf where
  w : ℕ
  h : ℕ
  pixels : List Pixel
deriving DecidableEq, Repr

/-- Bounds `dst.Bounds()` for a freshly allocated `image.NewNRGBA(Rect(0,0,w,h))`. -/
def Buf.bounds (b : Buf) : GoRect := ⟨⟨0, 0⟩, ⟨(b.w : ℤ), (b.h : ℤ)⟩⟩

/-- Pixel `(x, y)` of a buffer (byte offset `y*Stride + 4*x` in Go). -/
def Buf.pixAt (b : Buf) (x y : ℕ) : Option Pixel := b.pixels[y * b.w + x]?

/-- Row-major buffer filled with `f x y` at each `(x, y)`: the contents an
operation leaves at byte offset `y*Stride + 4*x` after its row loops. -/
def mkBuf (w h : ℕ) (f : ℕ → ℕ → Pixel) : Buf :=
  ⟨w, h, (List.range (w * h)).map fun i => f (i % w) (i / w)⟩

/-- Function `Clone`: row-parallel straight copy of the source through the scanner;
every row's reads stay inside the segment `scan` just filled, so the result
is exactly the per-pixel copy. -/
def Clone (img : Img) : Buf :=
  mkBuf img.w img.h fun x y => img.pix x y

/-- The rectangle `r` computed by `Crop`:
`rect.Intersect(img.Bounds()).Sub(img.Bounds().Min)`. -/
def cropRect (img : Img) (rect : GoRect) : GoRect :=
  (rect.intersect img.bounds).sub img.bounds.min

/-- Function `Crop`: empty intersection gives the canonical empty buffer
(`&image.NRGBA{}`); otherwise rows `r.Min.Y..r.Max.Y-1`, columns
`[r.Min.X, r.Max.X)` are scanned into a fresh `r.Dx() × r.Dy()` buffer. -/
def Crop (img : Img) (rect : GoRect) : Buf :=
  if (cropRect img rect).isEmpty then ⟨0, 0, []⟩
  else
    mkBuf (cropRect img rect).dx.toNat (cropRect img rect).dy.toNat fun x y =>
      img.pix ((cropRect img rect).min.x + (x : ℤ)).toNat
              ((cropRect img rect).min.y + (y : ℤ)).toNat

/-- Truncation toward zero of a rational, as the amd64 `cvttsd2si` used by
Go's float-to-int conversions does on finite in-range values. -/
def ratTrunc (q : ℚ) : ℤ := Int.tdiv q.num (q.den : ℤ)

/-- Go's `uint8(f)` for a finite float: truncate toward zero to a machine
integer and keep the low byte. -/
def goUint8 (q : ℚ) : Fin 256 :=
  ⟨(ratTrunc q % 256).toNat, by omega⟩

/-- Go's `uint8(f)` when `f` is NaN (the blend's 0/0 path): on gc/amd64,
`cvttsd2si` yields the indefinite integer `0x8000000000000000`, whose low
byte is 0. -/
def goUint8NaN : Fin 256 := 0

/-- A channel value widened to float: `float64(dst.Pix[...])`. -/
def q8 (v : Fin 256) : ℚ := ((v : ℕ) : ℚ)

/-- Statement `opacity = math.Min(math.Max(opacity, 0.0), 1.0)`, the first line of
`Overlay`. -/
def clampQ (p : ℚ) : ℚ := min (max p 0) 1

/-- Value `coefSum = coef1 + coef2` of the alpha-over blend in `Overlay`:
`coef2 = opacity*a2/255`, `coef1 = (1-coef2)*a1/255`. -/
def blendCoefSum (p a1 a2 : ℚ) : ℚ :=
  (1 - p * a2 / 255) * a1 / 255 + p * a2 / 255

/-- One color channel of the alpha-over blend after normalizing the
coefficients by their sum: `c1*(coef1/coefSum) + c2*(coef2/coefSum)`. -/
def blendChan (p a1 a2 c1 c2 : ℚ) : ℚ :=
  c1 * ((1 - p * a2 / 255) * a1 / 255 / blendCoefSum p a1 a2) +
  c2 * (p * a2 / 255 / blendCoefSum p a1 a2)

/-- The blended alpha: `math.Min(a1+a2*opacity*(255-a1)/255, 255)`. -/
def blendAlpha (p a1 a2 : ℚ) : ℚ :=
  min (a1 + a2 * p * (255 - a1) / 255) 255

/-- The per-pixel body of `Overlay`'s row loop (identical formula to
`OpBlend`): when `coefSum = 0` (possible only with `a1 = 0` and
`opacity*a2 = 0`) Go's two divisions are 0/0, every color channel becomes
NaN, and the write-back `uint8(NaN)` stores 0; the alpha formula involves no
division by `coefSum` and stays finite. -/
def blendPix (p : ℚ) (d s : Pixel) : Pixel :=
  if blendCoefSum p (q8 d.a) (q8 s.a) = 0 then
    ⟨goUint8NaN, goUint8NaN, goUint8NaN, goUint8 (blendAlpha p (q8 d.a) (q8 s.a))⟩
  else
    ⟨goUint8 (blendChan p (q8 d.a) (q8 s.a) (q8 d.r) (q8 s.r)),
     goUint8 (blendChan p (q8 d.a) (q8 s.a) (q8 d.g) (q8 s.g)),
     goUint8 (blendChan p (q8 d.a) (q8 s.a) (q8 d.b) (q8 s.b)),
     goUint8 (blendAlpha p (q8 d.a) (q8 s.a))⟩

/-- Rectangle `pasteRect`: `pos = pos.Sub(background.Bounds().Min)`, then
`{Min: pos, Max: pos.Add(img.Bounds().Size())}` (shared by `Paste` and
`Overlay`). -/
def pasteRectOf (bg fg : Img) (pos : GoPoint) : GoRect :=
  let pos2 := pos.sub bg.bounds.min
  ⟨pos2, ⟨pos2.x + (fg.w : ℤ), pos2.y + (fg.h : ℤ)⟩⟩

/-- Rectangle `interRect := pasteRect.Intersect(dst.Bounds())` where `dst` is the
clone of the background. -/
def interRectOf (bg fg : Img) (pos : GoPoint) : GoRect :=
  (pasteRectOf bg fg pos).intersect (Clone bg).bounds

/-- Function `Paste`: clone the background, then overwrite every pixel of `interRect`
with the corresponding foreground pixel (its scan line covers exactly the
columns the loop reads, so the pixel-level view is exact). -/
def Paste (bg fg : Img) (pos : GoPoint) : Buf :=
  if (interRectOf bg fg pos).isEmpty then Clone bg
  else
    mkBuf bg.w bg.h fun x y =>
      if (interRectOf bg fg pos).containsB x y then
        fg.pix ((x : ℤ) - (pasteRectOf bg fg pos).min.x).toNat
               ((y : ℤ) - (pasteRectOf bg fg pos).min.y).toNat
      else bg.pix x y

/-- Function `Overlay`: clamp the opacity, clone the background, and blend every
pixel of `interRect` with the corresponding foreground pixel. -/
def Overlay (bg fg : Img) (pos : GoPoint) (opacity : ℚ) : Buf :=
  if (interRectOf bg fg pos).isEmpty then Clone bg
  else
    mkBuf bg.w bg.h fun x y =>
      if (interRectOf bg fg pos).containsB x y then
        blendPix (clampQ opacity) (bg.pix x y)
          (fg.pix ((x : ℤ) - (pasteRectOf bg fg pos).min.x).toNat
                  ((y : ℤ) - (pasteRectOf bg fg pos).min.y).toNat)
      else bg.pix x y

/-- Operator `OpMinAlpha`: RGB from the background, alpha `math.Min(a1, a2)`. -/
def OpMinAlpha (r1 g1 b1 a1 r2 g2 b2 a2 : ℚ) : ℚ × ℚ × ℚ × ℚ :=
  (r1, g1, b1, min a1 a2)

/-- Operator `OpMaxAlpha`: RGB forced to `255.0`, alpha `math.Max(a1, a2)`. -/
def OpMaxAlpha (r1 g1 b1 a1 r2 g2 b2 a2 : ℚ) : ℚ × ℚ × ℚ × ℚ :=
  (255, 255, 255, max a1 a2)

/-- The pixel row `scan(x0, y, x0+w, y+1, ...)` deposits (spec-modelled
scanner: RGBA8 pixels of row `y`, columns `x0..x0+w-1`). -/
def scanRow (img : Img) (x0 w y : ℕ) : List Pixel :=
  (List.range w).map fun m => img.pix (x0 + m) y

def zeroPix : Pixel := ⟨0, 0, 0, 0⟩

/-- One `x` step of `OpaqueBounds`' inner loop.  The loop reads
`dst.Pix[i+3]` *before* `i += 4` with `i = y*Stride`, so it reads the alpha
of pixel `(x, y)` inside the row segment `scan` just filled (modelled by
`row`).  Both `if a > threshold` blocks are translated: the first
initializes `out` at the first qualifying pixel (under the mutex), the
second expands min/max (exact `math.Min`/`math.Max` on these integers). -/
def boundsStep (t y : ℕ) (row : List Pixel) (st : Bool × GoRect) (x : ℕ) :
    Bool × GoRect :=
  let a := ((row.getD x zeroPix).a : ℕ)
  let st1 := if t < a then
      (if st.1 then (false, GoRect.mk ⟨(x : ℤ), (y : ℤ)⟩ ⟨(x : ℤ), (y : ℤ)⟩) else st)
    else st
  if t < a then
    (if st1.1 then st1
     else (st1.1, ⟨⟨Min.min ((x : ℤ)) st1.2.min.x, Min.min ((y : ℤ)) st1.2.min.y⟩,
                   ⟨Max.max ((x : ℤ)) st1.2.max.x, Max.max ((y : ℤ)) st1.2.max.y⟩⟩))
  else st1

/-- One row of `OpaqueBounds` (rows are processed by `parallel`; the shared
state is mutex-guarded and its min/max updates commute, so the sequential
in-order fold computes the same rectangle). -/
def boundsRow (img : Img) (t : ℕ) (st : Bool × GoRect) (y : ℕ) : Bool × GoRect :=
  (List.range img.w).foldl (boundsStep t y (scanRow img 0 img.w y)) st

/-- Function `OpaqueBounds`: running bounding box over all pixels with alpha above
the threshold; `out` starts as the zero rectangle and `Max` is set from
found pixel coordinates directly (inclusive). -/
def OpaqueBounds (img : Img) (t : ℕ) : GoRect :=
  ((List.range img.h).foldl (boundsRow img t) (true, ⟨⟨0, 0⟩, ⟨0, 0⟩⟩)).2

/-- The four bytes of a pixel in NRGBA order. -/
def pixBytes (p : Pixel) : List ℕ := [(p.r : ℕ), (p.g : ℕ), (p.b : ℕ), (p.a : ℕ)]

/-- The byte run `scan` writes for row `y`, columns `[x0, x0+w)`. -/
def scanBytes (img : Img) (x0 w y : ℕ) : List ℕ :=
  ((scanRow img x0 w y).map pixBytes).flatten

/-- Overwrite `buf[i : i+bs.length]` with `bs` (callers establish the Go
slice-expression bound `i + bs.length ≤ buf.length` first). -/
def writeBytes (buf : List ℕ) (i : ℕ) (bs : List ℕ) : List ℕ :=
  buf.take i ++ bs ++ buf.drop (i + bs.length)

/-- Generic sequential run of `parallel(0, n, ...)` body over a fallible
per-index step (a Go runtime panic is `none`). -/
def rowsFold {α : Type} (f : α → ℕ → Option α) : List ℕ → α → Option α
  | [], st => some st
  | y :: ys, st =>
    match f st y with
    | none => none
    | some st2 => rowsFold f ys st2

/-- The inner `x` loop of `OpaqueArea`: `i += 4` happens *before*
`a := dst.Pix[i+3]`, so iteration `x` reads byte `i0 + 4*(x+1) + 3`; the
final iteration reads one pixel past the segment `scan` wrote (stale bytes,
or out of range — `none` — when the image is 1 pixel wide or tall). -/
def areaLoop (buf : List ℕ) (t : ℕ) : List ℕ → ℕ → ℕ → Option ℕ
  | [], _, cnt => some cnt
  | _ :: xs, i, cnt =>
    let i2 := i + 4
    match buf[i2 + 3]? with
    | none => none
    | some a => areaLoop buf t xs i2 (if t < a then cnt + 1 else cnt)

/-- One row of `OpaqueArea`: note the row base is `i := y * 4` (not
`y * Stride`), and the slice expression `dst.Pix[i : i+src.w*4]` requires
`i + 4*w ≤ len(Pix)`. -/
def areaRow (img : Img) (t : ℕ) (st : List ℕ × ℕ) (y : ℕ) :
    Option (List ℕ × ℕ) :=
  let i := y * 4
  if i + img.w * 4 ≤ st.1.length then
    let buf := writeBytes st.1 i (scanBytes img 0 img.w y)
    (areaLoop buf t (List.range img.w) i st.2).map fun c => (buf, c)
  else none

/-- Function `OpaqueArea` over the shared scratch `dst := NewNRGBA(w, h)` buffer
(`4*w*h` zero bytes).  The shared counter increment and the overlapping row
segments race under real parallelism; the model runs the rows in increasing
order (each row then reads zero for the byte only later rows write). -/
def OpaqueArea (img : Img) (t : ℕ) : Option ℕ :=
  (rowsFold (areaRow img t) (List.range img.h)
      (List.replicate (4 * img.w * img.h) 0, 0)).map fun st => st.2

/-- Sample row `y := int(math.Floor(float64(bounds.Min.Y) + float64(k)*yStep))` with
`yStep := float64(bounds.Dy()-1) / float64(n-1)`.  For `n = 1` the Go
division is by `0.0` and `0*(±Inf)` (or `0/0`) is NaN, converted by
`int(...)` on gc/amd64 to the indefinite integer `-2^63`.  For `n ≥ 2` the
exact value is `Min.Y + ⌊k*(Dy-1)/(n-1)⌋`, written with integer floor
division; on every input the claims below touch it coincides with the
float64 evaluation. -/
def sampleY (bounds : GoRect) (n k : ℕ) : ℤ :=
  if n = 1 then -(2 ^ 63)
  else bounds.min.y + Int.fdiv ((k : ℤ) * (bounds.dy - 1)) ((n : ℤ) - 1)

/-- The `x` values `for x := bounds.Min.X; x < bounds.Max.X; x++` iterates
(the inclusive right edge `Max.X` itself is never reached). -/
def xList (minX : ℤ) (w : ℕ) : List ℤ :=
  (List.range w).map fun j => minX + (j : ℤ)

/-- The inner `x` loop of `OpaquePolygon`: as in `OpaqueArea`, `i += 4`
precedes `a := dst.Pix[i+3]`, so iteration `x` tests the alpha byte of
column `x+1` (and the final iteration a byte past the scanned segment).
A qualifying `x` always stores `pointsRight[k] = (x, y)` (index `n+k` of
`out`); the first qualifying `x` additionally stores
`pointsLeft[n-1-k] = (x, y)` (index `n-1-k`) and sets `foundLeft`. -/
def polyLoop (buf : List ℕ) (t n k : ℕ) (y : ℤ) :
    List ℤ → ℕ → Bool → List GoPoint → Option (List GoPoint)
  | [], _, _, out => some out
  | x :: xs, i, fl, out =>
    let i2 := i + 4
    match buf[i2 + 3]? with
    | none => none
    | some a =>
      if a ≤ t then polyLoop buf t n k y xs i2 fl out
      else
        let out1 := out.set (n + k) ⟨x, y⟩
        if fl then polyLoop buf t n k y xs i2 fl out1
        else polyLoop buf t n k y xs i2 true (out1.set (n - 1 - k) ⟨x, y⟩)

/-- One sample `k` of `OpaquePolygon`: `i := (y - bounds.Min.Y) * 4 * w`
(an `int`, possibly negative), and the slice `dst.Pix[i : i+w*4]` requires
`0 ≤ i` and `i + 4*w ≤ len(Pix)` — otherwise Go panics (`none`). -/
def polyStep (img : Img) (t n : ℕ) (bounds : GoRect) (w : ℕ)
    (st : List ℕ × List GoPoint) (k : ℕ) : Option (List ℕ × List GoPoint) :=
  let y := sampleY bounds n k
  let i : ℤ := (y - bounds.min.y) * 4 * (w : ℤ)
  if 0 ≤ i ∧ i.toNat + w * 4 ≤ st.1.length then
    let buf := writeBytes st.1 i.toNat (scanBytes img bounds.min.x.toNat w y.toNat)
    (polyLoop buf t n k y (xList bounds.min.x w) i.toNat false st.2).map
      fun out => (buf, out)
  else none

/-- Function `OpaquePolygon`: computes `OpaqueBounds`, allocates `out` as `2n` zero
points (`pointsLeft = out[:n]`, `pointsRight = out[n:2n]` alias it) and a
fresh `NewNRGBA(w, h)` scratch buffer, then runs `parallel(0, n, ...)`
(modelled in increasing `k`; sample segments can overlap, so cross-worker
interleaving can change which stale bytes a sample reads — noted where
used).  `n` is modelled as a natural number (a negative Go `n` panics
inside `make` before any of this runs).  There is no validation of `n` and
no error return. -/
def OpaquePolygon (img : Img) (n t : ℕ) : Option (List GoPoint) :=
  let bounds := OpaqueBounds img t
  let w := bounds.dx.toNat
  (rowsFold (polyStep img t n bounds w) (List.range n)
      (List.replicate (4 * img.w * img.h) 0,
       List.replicate (2 * n) (⟨0, 0⟩ : GoPoint))).map fun st => st.2

/-! Concrete test images used by the witnesses and counterexamples below. -/

/-- A 2×2 image, every pixel fully opaque black. -/
def op2 : Img := ⟨2, 2, fun _ _ => ⟨0, 0, 0, 255⟩⟩

/-- A 1×1 fully transparent image. -/
def tr1 : Img := ⟨1, 1, fun _ _ => ⟨0, 0, 0, 0⟩⟩

/-- A 3×3 image, every pixel fully opaque black. -/
def op3 : Img := ⟨3, 3, fun _ _ => ⟨0, 0, 0, 255⟩⟩

/-- A 3×1 image: opaque pixels at (0,0) and (2,0), transparent at (1,0), so its
opaque bounding box is the single-row rectangle {(0,0),(2,0)}. -/
def imgRow : Img := ⟨3, 1, fun x _ => if x = 1 then ⟨0, 0, 0, 0⟩ else ⟨0, 0, 0, 255⟩⟩

/-- A 4×4 image, fully transparent except a single opaque pixel at (1,2)
(the spec's concrete scenario). -/
def img4 : Img :=
  ⟨4, 4, fun x y => if x = 1 ∧ y = 2 then ⟨0, 0, 0, 255⟩ else ⟨0, 0, 0, 0⟩⟩

/-- A 1×1 background whose pixel is transparent but has nonzero red. -/
def bgRed : Img := ⟨1, 1, fun _ _ => ⟨7, 0, 0, 0⟩⟩

/-- A 1×1 arbitrary foreground. -/
def fgAny : Img := ⟨1, 1, fun _ _ => ⟨1, 2, 3, 4⟩⟩

/-- A 1×1 background whose pixel is transparent but has nonzero green. -/
def bgGreen : Img := ⟨1, 1, fun _ _ => ⟨0, 9, 0, 0⟩⟩

/-- A 1×1 fully transparent foreground. -/
def fgTrans : Img := ⟨1, 1, fun _ _ => ⟨0, 0, 0, 0⟩⟩

/-- A 1×1 background with a nondegenerate, partly transparent pixel. -/
def bgMix : Img := ⟨1, 1, fun _ _ => ⟨3, 4, 5, 200⟩⟩

/-- A 1×1 fully opaque foreground. -/
def fgOp : Img := ⟨1, 1, fun _ _ => ⟨10, 20, 30, 255⟩⟩

/-- A 2×2 image with four distinct pixels (for the Crop witness). -/
def img2x2 : Img :=
  ⟨2, 2, fun x y =>
    if x = 0 ∧ y = 0 then ⟨1, 0, 0, 255⟩
    else if x = 1 ∧ y = 0 then ⟨2, 0, 0, 255⟩
    else if x = 0 ∧ y = 1 then ⟨3, 0, 0, 255⟩
    else ⟨4, 0, 0, 255⟩⟩

/-- The polygon `OpaquePolygon op3 2 0` actually returns. -/
def polyOut3 : List GoPoint := [⟨0, 1⟩, ⟨0, 0⟩, ⟨0, 0⟩, ⟨0, 1⟩]

/-! Helper lemmas. -/

/-- A fold whose step fixes the initial state leaves it unchanged. -/
theorem foldl_stay {α β : Type} (f : α → β → α) (st : α) :
    ∀ l : List β, (∀ b ∈ l, f st b = st) → l.foldl f st = st := by
  intro l
  induction l with
  | nil => intro _; rfl
  | cons b bs ih =>
    intro h
    rw [List.foldl_cons, h b (List.mem_cons_self b bs)]
    exact ih fun c hc => h c (List.mem_cons_of_mem b hc)

/-- Reading back a scanned row at a valid column yields the source pixel. -/
theorem scanRow_getD (img : Img) (w y x : ℕ) (hx : x < w) :
    (scanRow img 0 w y).getD x zeroPix = img.pix x y := by
  rw [scanRow, List.getD_eq_getElem?_getD, List.getElem?_map, List.getElem?_range hx]
  simp

/-- Index `y*w + x` of the flat row-major table is pixel `(x, y)`. -/
theorem mkBuf_pixAt (w h : ℕ) (f : ℕ → ℕ → Pixel) (x y : ℕ)
    (hx : x < w) (hy : y < h) : (mkBuf w h f).pixAt x y = some (f x y) := by
  have hw : 0 < w := Nat.lt_of_le_of_lt (Nat.zero_le x) hx
  have hlt : y * w + x < w * h := by
    calc y * w + x < y * w + w := by omega
    _ = (y + 1) * w := by ring
    _ ≤ h * w := Nat.mul_le_mul_right w hy
    _ = w * h := Nat.mul_comm h w
  rw [Buf.pixAt, mkBuf, List.getElem?_map, List.getElem?_range hlt]
  have hmod : (y * w + x) % w = x := by
    rw [Nat.mul_comm, Nat.add_comm, Nat.add_mul_mod_self_left, Nat.mod_eq_of_lt hx]
  have hdiv : (y * w + x) / w = y := by
    rw [Nat.add_comm, Nat.add_mul_div_right x y hw, Nat.div_eq_of_lt hx, Nat.zero_add]
  simp only [Option.map_some']
  exact congrArg some (by rw [hmod, hdiv])

/-- Two flat tables over the same grid with pointwise-equal fill functions
are the same buffer. -/
theorem mkBuf_congr {w h : ℕ} {f g : ℕ → ℕ → Pixel}
    (hfg : ∀ x y, f x y = g x y) : mkBuf w h f = mkBuf w h g := by
  unfold mkBuf
  exact congrArg (Buf.mk w h) (List.map_congr_left fun i _ => hfg _ _)

theorem q8_nonneg (v : Fin 256) : 0 ≤ q8 v := by
  unfold q8; positivity

theorem q8_le (v : Fin 256) : q8 v ≤ 255 := by
  unfold q8
  have h : (v : ℕ) ≤ 255 := Nat.lt_succ_iff.mp v.isLt
  calc ((v : ℕ) : ℚ) ≤ ((255 : ℕ) : ℚ) := by exact_mod_cast h
  _ = 255 := by norm_num

theorem q8_ne_zero (v : Fin 256) (h : v ≠ 0) : q8 v ≠ 0 := by
  unfold q8
  have hv : (v : ℕ) ≠ 0 := fun hz => h (Fin.ext (by simpa using hz))
  exact_mod_cast hv

theorem q8_255 : q8 (255 : Fin 256) = 255 := by
  have h : ((255 : Fin 256) : ℕ) = 255 := rfl
  unfold q8; rw [h]; norm_num

/-- Conversion `uint8(float64(v))` round-trips every byte. -/
theorem goUint8_q8 (v : Fin 256) : goUint8 (q8 v) = v := by
  have hnum : (q8 v).num = ((v : ℕ) : ℤ) := Rat.num_natCast (v : ℕ)
  have hden : (q8 v).den = 1 := Rat.den_natCast (v : ℕ)
  have htr : ratTrunc (q8 v) = ((v : ℕ) : ℤ) := by
    rw [ratTrunc, hnum, hden]; simp [Int.tdiv]
  apply Fin.ext
  show (ratTrunc (q8 v) % 256).toNat = (v : ℕ)
  rw [htr]
  have hlt : ((v : ℕ) : ℤ) % 256 = ((v : ℕ) : ℤ) :=
    Int.emod_eq_of_lt (by positivity) (by exact_mod_cast v.isLt)
  rw [hlt]; simp

theorem clampQ_zero : clampQ 0 = 0 := by norm_num [clampQ]

theorem clampQ_one : clampQ 1 = 1 := by norm_num [clampQ]

theorem clampQ_clampQ (p : ℚ) : clampQ (clampQ p) = clampQ p := by
  have h0 : 0 ≤ clampQ p := le_min (le_max_right p 0) zero_le_one
  have h1 : clampQ p ≤ 1 := min_le_right (max p 0) 1
  rw [clampQ, max_eq_left h0, min_eq_left h1]

/-- When `opacity*a2 = 0` (foreground contributes nothing) and the
background pixel is not fully transparent, the blend is exact and returns
the background pixel unchanged. -/
theorem blendPix_coefZero (p : ℚ) (d s : Pixel) (hp : p * q8 s.a = 0)
    (ha : d.a ≠ 0) : blendPix p d s = d := by
  have ha1 : q8 d.a ≠ 0 := q8_ne_zero d.a ha
  have hsum : blendCoefSum p (q8 d.a) (q8 s.a) = q8 d.a / 255 := by
    rw [blendCoefSum, hp]; ring
  have hsum0 : blendCoefSum p (q8 d.a) (q8 s.a) ≠ 0 := by
    rw [hsum]
    exact div_ne_zero ha1 (by norm_num)
  have hchan : ∀ c1 c2 : ℚ, blendChan p (q8 d.a) (q8 s.a) c1 c2 = c1 := by
    intro c1 c2
    rw [blendChan, hsum, hp]
    have hnum : (1 - 0 / 255) * q8 d.a / 255 = q8 d.a / 255 := by ring
    rw [hnum, div_self (div_ne_zero ha1 (by norm_num : (255 : ℚ) ≠ 0)),
      zero_div, zero_div]
    ring
  have halpha : blendAlpha p (q8 d.a) (q8 s.a) = q8 d.a := by
    have hsp : q8 s.a * p = 0 := by rw [mul_comm]; exact hp
    rw [blendAlpha, hsp]
    have : q8 d.a + 0 * (255 - q8 d.a) / 255 = q8 d.a := by ring
    rw [this]
    exact min_eq_left (q8_le d.a)
  rw [blendPix, if_neg hsum0, hchan, hchan, hchan, halpha,
    goUint8_q8, goUint8_q8, goUint8_q8, goUint8_q8]

/-- Blending a fully opaque foreground pixel at opacity 1 is exact and
replaces the background pixel entirely (as `Paste` does). -/
theorem blendPix_solidFg (d s : Pixel) (hs : s.a = 255) : blendPix 1 d s = s := by
  have ha2 : q8 s.a = 255 := by rw [hs]; exact q8_255
  have hsum : blendCoefSum 1 (q8 d.a) (q8 s.a) = 1 := by
    rw [blendCoefSum, ha2]; ring
  have hsum0 : blendCoefSum 1 (q8 d.a) (q8 s.a) ≠ 0 := by
    rw [hsum]; norm_num
  have hchan : ∀ c1 c2 : ℚ, blendChan 1 (q8 d.a) (q8 s.a) c1 c2 = c2 := by
    intro c1 c2
    rw [blendChan, hsum, ha2]
    ring
  have halpha : blendAlpha 1 (q8 d.a) (q8 s.a) = 255 := by
    rw [blendAlpha, ha2]
    have : q8 d.a + 255 * 1 * (255 - q8 d.a) / 255 = 255 := by ring
    rw [this, min_self]
  rw [blendPix, if_neg hsum0, hchan, hchan, hchan, halpha]
  rw [show (255 : ℚ) = q8 (255 : Fin 256) from q8_255.symm, goUint8_q8,
    goUint8_q8, goUint8_q8, goUint8_q8, ← hs]

/-- A grid point inside `interRect` lies inside both the translated
foreground rectangle and the background bounds. -/
theorem containsB_interRect (bg fg : Img) (pos : GoPoint) (x y : ℕ)
    (h : (interRectOf bg fg pos).containsB (x : ℤ) (y : ℤ) = true) :
    pos.x ≤ (x : ℤ) ∧ (x : ℤ) < pos.x + fg.w ∧
    pos.y ≤ (y : ℤ) ∧ (y : ℤ) < pos.y + fg.h ∧ x < bg.w ∧ y < bg.h := by
  simp only [interRectOf, pasteRectOf, GoRect.intersect, GoRect.containsB,
    GoPoint.sub, Img.bounds, Buf.bounds, Clone, mkBuf, GoRect.isEmpty,
    Bool.and_eq_true, decide_eq_true_eq] at h
  split_ifs at h with hemp
  · dsimp only at h; omega
  · dsimp only at h; omega

/-- The polygon inner loop only ever calls `List.set`, so it preserves the
length of `out`. -/
theorem polyLoop_length (buf : List ℕ) (t n k : ℕ) (y : ℤ) :
    ∀ (xs : List ℤ) (i : ℕ) (fl : Bool) (out res : List GoPoint),
      polyLoop buf t n k y xs i fl out = some res → res.length = out.length := by
  intro xs
  induction xs with
  | nil =>
    intro i fl out res h
    rw [polyLoop] at h
    exact (Option.some_inj.mp h) ▸ rfl
  | cons x xs ih =>
    intro i fl out res h
    rw [polyLoop] at h
    cases hb : buf[i + 4 + 3]? with
    | none => rw [hb] at h; exact absurd h (by simp)
    | some a =>
      rw [hb] at h
      dsimp only at h
      by_cases hat : a ≤ t
      · rw [if_pos hat] at h
        exact ih _ _ _ _ h
      · rw [if_neg hat] at h
        by_cases hfl : fl = true
        · rw [if_pos hfl] at h
          rw [ih _ _ _ _ h]
          exact List.length_set ..
        · rw [if_neg hfl] at h
          rw [ih _ _ _ _ h, List.length_set, List.length_set]

/-- One polygon sample step preserves the length of `out`. -/
theorem polyStep_length (img : Img) (t n : ℕ) (bounds : GoRect) (w : ℕ)
    (st res : List ℕ × List GoPoint) (k : ℕ)
    (h : polyStep img t n bounds w st k = some res) :
    res.2.length = st.2.length := by
  rw [polyStep] at h
  split_ifs at h with hg
  · dsimp only at h
    cases hl : polyLoop (writeBytes st.1 ((sampleY bounds n k - bounds.min.y) * 4 * (w : ℤ)).toNat
        (scanBytes img bounds.min.x.toNat w (sampleY bounds n k).toNat)) t n k
        (sampleY bounds n k) (xList bounds.min.x w)
        ((sampleY bounds n k - bounds.min.y) * 4 * (w : ℤ)).toNat false st.2 with
    | none => rw [hl] at h; exact absurd h (by simp)
    | some out =>
      rw [hl] at h
      simp only [Option.map_some'] at h
      rw [← Option.some_inj.mp h]
      exact polyLoop_length _ _ _ _ _ _ _ _ _ _ hl

/-- Running the sample loop preserves the length of `out`. -/
theorem rowsFold_poly_length (img : Img) (t n : ℕ) (bounds : GoRect) (w : ℕ) :
    ∀ (l : List ℕ) (st res : List ℕ × List GoPoint),
      rowsFold (polyStep img t n bounds w) l st = some res →
      res.2.length = st.2.length := by
  intro l
  induction l with
  | nil =>
    intro st res h
    rw [rowsFold] at h
    exact (Option.some_inj.mp h) ▸ rfl
  | cons k ks ih =>
    intro st res h
    rw [rowsFold] at h
    cases hs : polyStep img t n bounds w st k with
    | none => rw [hs] at h; exact absurd h (by simp)
    | some st2 =>
      rw [hs] at h
      rw [ih _ _ h]
      exact polyStep_length img t n bounds w st st2 k hs

theorem q8_zero : q8 (0 : Fin 256) = 0 := by norm_num [q8]

/-- The blend's 0/0 branch: RGB is the NaN byte (0), alpha the finite
formula. -/
theorem blendPix_nanCase (p : ℚ) (d s : Pixel)
    (h : blendCoefSum p (q8 d.a) (q8 s.a) = 0) :
    blendPix p d s = ⟨0, 0, 0, goUint8 (blendAlpha p (q8 d.a) (q8 s.a))⟩ := by
  rw [blendPix, if_pos h]; rfl

/-! Claim theorems. -/

/-- C1 (amended): `OpaquePolygon` performs no validation of `n` and has no
error return: `n = 0` yields the empty slice normally; and whenever a call
with `n ≥ 2` returns a result at all (it can instead hit an out-of-range
slice index, see the counterexample), that result has exactly `2n`
points. -/
theorem polygon_no_validation :
    (∀ (img : Img) (t : ℕ), OpaquePolygon img 0 t = some []) ∧
    (∀ (img : Img) (n t : ℕ) (out : List GoPoint), 2 ≤ n →
      OpaquePolygon img n t = some out → out.length = 2 * n) := by
  constructor
  · intro img t
    rfl
  · intro img n t out _h2 h
    rw [OpaquePolygon] at h
    cases hr : rowsFold
        (polyStep img t n (OpaqueBounds img t) (OpaqueBounds img t).dx.toNat)
        (List.range n)
        (List.replicate (4 * img.w * img.h) 0,
         List.replicate (2 * n) (⟨0, 0⟩ : GoPoint)) with
    | none => rw [hr] at h; exact absurd h (by simp)
    | some st =>
      rw [hr] at h
      simp only [Option.map_some'] at h
      rw [← Option.some_inj.mp h]
      rw [rowsFold_poly_length img t n _ _ _ _ _ hr]
      exact List.length_replicate ..

/-- C1 (counterexample): `OpaquePolygon` with `n = 0 < 2` returns an empty
slice normally — no invalid-argument error exists in its signature — and
with `n = 2` on an image whose opaque bounding box is a single row of
positive width it hits a negative slice index (Go runtime panic) instead of
returning `2n` points. -/
theorem polygon_reject_refuted :
    OpaquePolygon imgRow 0 0 = some [] ∧ OpaquePolygon imgRow 2 0 = none := by
  exact ⟨by rfl, by decide⟩

/-- C1 (witness): the amended claim at concrete inputs: `n = 0` on `op3`
returns `some []`, and the `n = 2` call on `op3` returns a 4-point list. -/
theorem polygon_no_validation_witness :
    OpaquePolygon op3 0 0 = some [] ∧ polyOut3.length = 2 * 2 :=
  ⟨polygon_no_validation.1 op3 0,
   polygon_no_validation.2 op3 2 0 polyOut3 (by norm_num) (by decide)⟩

/-- C2: `OpaqueArea` on the fully opaque 2×2 image with threshold 0 returns
2, not `w*h = 4` (the row base is `y*4` instead of `y*Stride` and `i += 4`
precedes the alpha read, so each row counts the alphas of columns `1..w-1`
plus one stale byte); and on the fully transparent 1×1 image it reads
`dst.Pix[7]` of a 4-byte buffer (Go panic), instead of returning 0. -/
theorem area_miscounts :
    OpaqueArea op2 0 = some 2 ∧ OpaqueArea tr1 0 = none := by
  exact ⟨by decide, by decide⟩

/-- C3: on the fully opaque 3×3 image with `n = 2`, threshold 0, the
sampled rows are 0 and 1 and the claim expects left points `(0,0)`/`(0,1)`
and right points `(2,0)`/`(2,1)`; the code instead returns `(0,0)`/`(0,1)`
for *both* edges — the loop tests the alpha byte of column `x+1` and stops
short of the bounding box's inclusive right edge, so the last qualifying
`x` it ever sees is 0. -/
theorem polygon_wrong_right_points :
    OpaquePolygon op3 2 0 = some polyOut3 := by decide

/-- C7: if no pixel's alpha exceeds the threshold, `OpaqueBounds` returns
the zero rectangle; and on the 4×4 transparent buffer with one opaque pixel
at (1,2) and threshold 10 it returns `{Min=(1,2), Max=(1,2)}` (`Max` set
inclusively from the found coordinate). -/
theorem bounds_spec :
    (∀ (img : Img) (t : ℕ),
      (∀ x y : ℕ, x < img.w → y < img.h → ((img.pix x y).a : ℕ) ≤ t) →
      OpaqueBounds img t = ⟨⟨0, 0⟩, ⟨0, 0⟩⟩) ∧
    OpaqueBounds img4 10 = ⟨⟨1, 2⟩, ⟨1, 2⟩⟩ := by
  constructor
  · intro img t hall
    have houter : (List.range img.h).foldl (boundsRow img t)
        (true, (⟨⟨0, 0⟩, ⟨0, 0⟩⟩ : GoRect)) = (true, ⟨⟨0, 0⟩, ⟨0, 0⟩⟩) := by
      apply foldl_stay
      intro y hy
      rw [boundsRow]
      apply foldl_stay
      intro x hx
      have hxw : x < img.w := List.mem_range.mp hx
      have hyh : y < img.h := List.mem_range.mp hy
      have hna : ¬ t < ((img.pix x y).a : ℕ) := Nat.not_lt.mpr (hall x y hxw hyh)
      rw [boundsStep]
      dsimp only
      rw [scanRow_getD img img.w y x hxw, if_neg hna, if_neg hna]
    rw [OpaqueBounds, houter]
  · decide

/-- C7 (witness): the universal half applied to a concrete fully
transparent image. -/
theorem bounds_zero_witness : OpaqueBounds tr1 7 = ⟨⟨0, 0⟩, ⟨0, 0⟩⟩ :=
  bounds_spec.1 tr1 7 fun _ _ _ _ =>
    show ((⟨0, 0, 0, 0⟩ : Pixel).a : ℕ) ≤ 7 by decide

/-- C9: `OpMinAlpha` passes the background RGB through with
`alpha = min a1 a2`; `OpMaxAlpha` forces RGB to white with
`alpha = max a1 a2`. -/
theorem opMinMaxAlpha_spec (r1 g1 b1 a1 r2 g2 b2 a2 : ℚ) :
    OpMinAlpha r1 g1 b1 a1 r2 g2 b2 a2 = (r1, g1, b1, min a1 a2) ∧
    OpMaxAlpha r1 g1 b1 a1 r2 g2 b2 a2 = (255, 255, 255, max a1 a2) :=
  ⟨rfl, rfl⟩

/-- C10: `Overlay`'s first statement clamps the opacity to `[0, 1]`, so an
out-of-range opacity gives exactly the clamped call's result; `Overlay`
never rejects any opacity value. -/
theorem overlay_clamps_opacity (bg fg : Img) (pos : GoPoint) (p : ℚ) :
    Overlay bg fg pos p = Overlay bg fg pos (min (max p 0) 1) := by
  show Overlay bg fg pos p = Overlay bg fg pos (clampQ p)
  simp only [Overlay, clampQ_clampQ]

/-- C4 (amended): `Overlay(bg, fg, pos, 0.0)` equals `Clone(bg)` whenever
every background pixel inside the overlap rectangle has nonzero alpha.  (An
overlapped background pixel with alpha 0 makes `coefSum = 0`; the 0/0 NaN
coefficients zero its RGB channels on write-back — see the
counterexample.) -/
theorem overlay_zero_opacity_clones (bg fg : Img) (pos : GoPoint)
    (hbg : ∀ x y : ℕ,
      (interRectOf bg fg pos).containsB (x : ℤ) (y : ℤ) = true →
      (bg.pix x y).a ≠ 0) :
    Overlay bg fg pos 0 = Clone bg := by
  rw [Overlay]
  split_ifs with hemp
  · rfl
  · rw [Clone]
    apply mkBuf_congr
    intro x y
    by_cases hc : (interRectOf bg fg pos).containsB (x : ℤ) (y : ℤ) = true
    · rw [if_pos hc]
      apply blendPix_coefZero
      · rw [clampQ_zero, zero_mul]
      · exact hbg x y hc
    · rw [if_neg hc]

/-- C4 (counterexample): the 1×1 background pixel `(7,0,0,0)` is
transparent with nonzero red; overlaying anything at opacity 0 runs the
blend's 0/0 path and stores RGB `(0,0,0)`, so the result is not the clone
of the background. -/
theorem overlay_zero_opacity_not_clone :
    Overlay bgRed fgAny ⟨0, 0⟩ 0 ≠ Clone bgRed := by
  intro h
  have hL : (Overlay bgRed fgAny ⟨0, 0⟩ 0).pixAt 0 0 =
      some (blendPix (clampQ 0) ⟨7, 0, 0, 0⟩ ⟨1, 2, 3, 4⟩) := by
    rw [Overlay,
      if_neg (by decide : ¬ (interRectOf bgRed fgAny ⟨0, 0⟩).isEmpty),
      mkBuf_pixAt _ _ _ 0 0 (by decide) (by decide)]
    rw [if_pos (by decide :
      (interRectOf bgRed fgAny ⟨0, 0⟩).containsB ((0 : ℕ) : ℤ) ((0 : ℕ) : ℤ) = true)]
    rfl
  have hR : (Clone bgRed).pixAt 0 0 = some (⟨7, 0, 0, 0⟩ : Pixel) := by
    rw [Clone, mkBuf_pixAt _ _ _ 0 0 (by decide) (by decide)]
    rfl
  have hnan : blendPix (clampQ 0) (⟨7, 0, 0, 0⟩ : Pixel) (⟨1, 2, 3, 4⟩ : Pixel) =
      ⟨0, 0, 0, goUint8 (blendAlpha (clampQ 0) (q8 0) (q8 4))⟩ := by
    apply blendPix_nanCase
    rw [clampQ_zero]
    show blendCoefSum 0 (q8 0) (q8 4) = 0
    rw [q8_zero, blendCoefSum]
    ring
  have heq : some (blendPix (clampQ 0) (⟨7, 0, 0, 0⟩ : Pixel) ⟨1, 2, 3, 4⟩) =
      some (⟨7, 0, 0, 0⟩ : Pixel) := by
    rw [← hL, ← hR, h]
  rw [hnan] at heq
  have hpx := Option.some_inj.mp heq
  have : (0 : Fin 256) = 7 := congrArg Pixel.r hpx
  exact absurd this (by decide)

/-- C4 (witness): on a background whose overlapped pixel has alpha 200 ≠ 0,
overlay at opacity 0 is exactly the clone. -/
theorem overlay_zero_opacity_clones_witness :
    Overlay bgMix fgAny ⟨0, 0⟩ 0 = Clone bgMix :=
  overlay_zero_opacity_clones bgMix fgAny ⟨0, 0⟩ fun _ _ _ =>
    show (⟨3, 4, 5, 200⟩ : Pixel).a ≠ 0 by decide

/-- C5 (amended): overlaying a fully transparent foreground at opacity 1
leaves the background byte-identical *on the pixels whose own alpha is
nonzero*; a fully transparent background pixel instead goes through the 0/0
NaN path that zeroes its RGB (see the counterexample), contrary to the
claim's "including RGB of fully-transparent background pixels". -/
theorem overlay_transparent_fg_preserves (bg fg : Img) (pos : GoPoint)
    (hfg : ∀ x y : ℕ, x < fg.w → y < fg.h → (fg.pix x y).a = 0)
    (hbg : ∀ x y : ℕ,
      (interRectOf bg fg pos).containsB (x : ℤ) (y : ℤ) = true →
      (bg.pix x y).a ≠ 0) :
    Overlay bg fg pos 1 = Clone bg := by
  rw [Overlay]
  split_ifs with hemp
  · rfl
  · rw [Clone]
    apply mkBuf_congr
    intro x y
    by_cases hc : (interRectOf bg fg pos).containsB (x : ℤ) (y : ℤ) = true
    · rw [if_pos hc]
      apply blendPix_coefZero
      · have hb := containsB_interRect bg fg pos x y hc
        have hfa : (fg.pix ((x : ℤ) - (pasteRectOf bg fg pos).min.x).toNat
            ((y : ℤ) - (pasteRectOf bg fg pos).min.y).toNat).a = 0 := by
          apply hfg
          · simp only [pasteRectOf, GoPoint.sub, Img.bounds]
            omega
          · simp only [pasteRectOf, GoPoint.sub, Img.bounds]
            omega
        rw [hfa, q8_zero, mul_zero]
      · exact hbg x y hc
    · rw [if_neg hc]

/-- C5 (counterexample): background pixel `(0,9,0,0)` (transparent, nonzero
green), fully transparent 1×1 foreground, opacity 1.0: the overlapped pixel
is *not* byte-identical to the background's — its green channel is zeroed
by the NaN conversion. -/
theorem overlay_transparent_fg_not_identical :
    Overlay bgGreen fgTrans ⟨0, 0⟩ 1 ≠ Clone bgGreen := by
  intro h
  have hL : (Overlay bgGreen fgTrans ⟨0, 0⟩ 1).pixAt 0 0 =
      some (blendPix (clampQ 1) ⟨0, 9, 0, 0⟩ ⟨0, 0, 0, 0⟩) := by
    rw [Overlay,
      if_neg (by decide : ¬ (interRectOf bgGreen fgTrans ⟨0, 0⟩).isEmpty),
      mkBuf_pixAt _ _ _ 0 0 (by decide) (by decide)]
    rw [if_pos (by decide :
      (interRectOf bgGreen fgTrans ⟨0, 0⟩).containsB ((0 : ℕ) : ℤ) ((0 : ℕ) : ℤ) = true)]
    rfl
  have hR : (Clone bgGreen).pixAt 0 0 = some (⟨0, 9, 0, 0⟩ : Pixel) := by
    rw [Clone, mkBuf_pixAt _ _ _ 0 0 (by decide) (by decide)]
    rfl
  have hnan : blendPix (clampQ 1) (⟨0, 9, 0, 0⟩ : Pixel) (⟨0, 0, 0, 0⟩ : Pixel) =
      ⟨0, 0, 0, goUint8 (blendAlpha (clampQ 1) (q8 0) (q8 0))⟩ := by
    apply blendPix_nanCase
    rw [clampQ_one]
    show blendCoefSum 1 (q8 0) (q8 0) = 0
    rw [q8_zero, blendCoefSum]
    ring
  have heq : some (blendPix (clampQ 1) (⟨0, 9, 0, 0⟩ : Pixel) ⟨0, 0, 0, 0⟩) =
      some (⟨0, 9, 0, 0⟩ : Pixel) := by
    rw [← hL, ← hR, h]
  rw [hnan] at heq
  have hpx := Option.some_inj.mp heq
  have : (0 : Fin 256) = 9 := congrArg Pixel.g hpx
  exact absurd this (by decide)

/-- C5 (witness): with an overlapped background pixel of alpha 200 and a
transparent foreground, overlay at opacity 1 preserves the background
exactly. -/
theorem overlay_transparent_fg_preserves_witness :
    Overlay bgMix fgTrans ⟨0, 0⟩ 1 = Clone bgMix :=
  overlay_transparent_fg_preserves bgMix fgTrans ⟨0, 0⟩
    (fun _ _ _ _ => show (⟨0, 0, 0, 0⟩ : Pixel).a = 0 by decide)
    (fun _ _ _ => show (⟨3, 4, 5, 200⟩ : Pixel).a ≠ 0 by decide)

/-- C6: a fully opaque foreground at opacity 1 makes the blend coefficients
exactly (0, 1): `Overlay` writes the foreground pixel with alpha 255 at
every overlapped position and equals `Paste` pixel for pixel (outside the
overlap both are the clone of the background). -/
theorem overlay_solid_fg_eq_paste (bg fg : Img) (pos : GoPoint)
    (hfg : ∀ x y : ℕ, x < fg.w → y < fg.h → (fg.pix x y).a = 255) :
    Overlay bg fg pos 1 = Paste bg fg pos := by
  rw [Overlay, Paste]
  split_ifs with hemp
  · rfl
  · apply mkBuf_congr
    intro x y
    by_cases hc : (interRectOf bg fg pos).containsB (x : ℤ) (y : ℤ) = true
    · rw [if_pos hc, if_pos hc, clampQ_one]
      apply blendPix_solidFg
      have hb := containsB_interRect bg fg pos x y hc
      apply hfg
      · simp only [pasteRectOf, GoPoint.sub, Img.bounds]
        omega
      · simp only [pasteRectOf, GoPoint.sub, Img.bounds]
        omega
    · rw [if_neg hc, if_neg hc]

/-- C6 (witness): a concrete opaque 1×1 foreground pasted/overlaid onto a
concrete 1×1 background. -/
theorem overlay_solid_fg_eq_paste_witness :
    Overlay bgMix fgOp ⟨0, 0⟩ 1 = Paste bgMix fgOp ⟨0, 0⟩ :=
  overlay_solid_fg_eq_paste bgMix fgOp ⟨0, 0⟩ fun _ _ _ _ =>
    show (⟨10, 20, 30, 255⟩ : Pixel).a = 255 by decide

/-- C8: `Crop` with an empty intersection returns the canonical empty
buffer without any error; otherwise the result has the intersection's
dimensions and carries exactly the source pixels of the intersection. -/
theorem crop_spec (img : Img) (rect : GoRect) :
    ((cropRect img rect).isEmpty → Crop img rect = ⟨0, 0, []⟩) ∧
    (¬ (cropRect img rect).isEmpty →
      (Crop img rect).w = (cropRect img rect).dx.toNat ∧
      (Crop img rect).h = (cropRect img rect).dy.toNat ∧
      ∀ x y : ℕ, x < (cropRect img rect).dx.toNat →
        y < (cropRect img rect).dy.toNat →
        (Crop img rect).pixAt x y =
          some (img.pix ((cropRect img rect).min.x + (x : ℤ)).toNat
                        ((cropRect img rect).min.y + (y : ℤ)).toNat)) := by
  constructor
  · intro he
    rw [Crop, if_pos he]
  · intro he
    rw [Crop, if_neg he]
    refine ⟨rfl, rfl, ?_⟩
    intro x y hx hy
    exact mkBuf_pixAt _ _ _ x y hx hy

/-- C8 (witness): a non-overlapping rectangle yields the canonical empty
buffer, and an overlapping one yields the source pixels of the clipped
region. -/
theorem crop_spec_witness :
    Crop img2x2 ⟨⟨5, 5⟩, ⟨7, 7⟩⟩ = ⟨0, 0, []⟩ ∧
    (Crop img2x2 ⟨⟨1, 0⟩, ⟨5, 5⟩⟩).pixAt 0 1 =
      some (img2x2.pix
        ((cropRect img2x2 ⟨⟨1, 0⟩, ⟨5, 5⟩⟩).min.x + ((0 : ℕ) : ℤ)).toNat
        ((cropRect img2x2 ⟨⟨1, 0⟩, ⟨5, 5⟩⟩).min.y + ((1 : ℕ) : ℤ)).toNat) :=
  ⟨(crop_spec img2x2 ⟨⟨5, 5⟩, ⟨7, 7⟩⟩).1 (by decide),
   ((crop_spec img2x2 ⟨⟨1, 0⟩, ⟨5, 5⟩⟩).2 (by decide)).2.2 0 1
     (by decide) (by decide)⟩

end ImagingModel
